import Mathlib

/-!
Verification of the HBase region-swap balance planner
(`src/hbase/swap_regions.py`) against its specification.

Python dictionaries are modelled as ordered association lists:
lookup reads the first occurrence of a key, update rewrites the first
occurrence in place (or appends a fresh key at the end), exactly the
observable behaviour of a Python `dict`.  Real-number arithmetic
(`total / num_servers`, the `0.5` score penalty) is modelled with `ℚ`.
The `while iteration < max_iterations` loop is modelled with fuel 1000.
-/

set_option autoImplicit false

namespace SwapRegions

/-- Lookup in an ordered association list: first occurrence of the key,
modelling Python `d[k]` / `d.get(k)`. -/
def dGet {β : Type} : List (String × β) → String → Option β
  | [], _ => none
  | (k, v) :: rest, key => if key = k then some v else dGet rest key

/-- Python `d.get(k, dflt)`. -/
def dGetD {β : Type} (d : List (String × β)) (k : String) (dflt : β) : β :=
  (dGet d k).getD dflt

/-- Python `d[k] = v`: rewrite the first occurrence of `k` in place,
or append `(k, v)` when `k` is absent (dict insertion order). -/
def dSet {β : Type} : List (String × β) → String → β → List (String × β)
  | [], k, v => [(k, v)]
  | (k', v') :: rest, k, v =>
    if k = k' then (k, v) :: rest else (k', v') :: dSet rest k v

/-- `server_table_count`: server → (table → region count). -/
abbrev SCDict : Type := List (String × List (String × Int))

/-- `server_table_regions`: server → (table → list of encoded region names). -/
abbrev SRDict : Type := List (String × List (String × List String))

/-- `stc[s].get(t, 0)`: count of table `t` regions on server `s`. -/
def cnt (stc : SCDict) (s t : String) : Int :=
  dGetD (dGetD stc s []) t 0

/-- `str_regions.get(s, {}).get(t, [])`: region list of table `t` on server `s`. -/
def rgs (regs : SRDict) (s t : String) : List String :=
  dGetD (dGetD regs s []) t []

/-- `sum(counts.get(table, 0) for counts in server_table_count.values())`:
total number of regions of table `t` across all servers. -/
def stcTotal (stc : SCDict) (t : String) : Int :=
  (stc.map (fun p => dGetD p.2 t 0)).sum

/-- `table_avg[table] = total / num_servers` (and `table_avg.get(t, 0)` for a
table with no regions, whose total is `0`). -/
def tableAvgQ (stc : SCDict) (t : String) : ℚ :=
  (stcTotal stc t : ℚ) / (stc.length : ℚ)

/-- One element of the returned plan:
`(hot_region, cold_region, cold_table, donor_server, receiver_server)`. -/
structure Swap where
  hotRegion : String
  coldRegion : String
  coldTable : String
  source : String
  target : String
deriving DecidableEq, Repr

/-- The planner's working state: the deep copies `stc` and `str_regions`
made at the top of `compute_balance_plan`. -/
structure PState where
  stc : SCDict
  regs : SRDict
deriving DecidableEq, Repr

/-- Stable insertion of one weighted server into a list sorted by descending
weight; the new element goes before the first strictly lighter element. -/
def insertByWeight (x : String × ℚ) : List (String × ℚ) → List (String × ℚ)
  | [] => [x]
  | y :: ys => if y.2 ≤ x.2 then x :: y :: ys else y :: insertByWeight x ys

/-- Stable sort by descending weight, modelling
`donors.sort(key=lambda x: -x[1])` (Python sorts are stable). -/
def sortDesc : List (String × ℚ) → List (String × ℚ)
  | [] => []
  | x :: xs => insertByWeight x (sortDesc xs)

/-- The donor list built at the top of each planner iteration: every server
whose current hot-table count strictly exceeds `hot_avg`, weighted by the
excess, sorted by descending weight. -/
def donorsOf (servers : List String) (stc : SCDict) (hot : String) (hotAvg : ℚ) :
    List (String × ℚ) :=
  sortDesc (servers.filterMap (fun s =>
    if hotAvg < (cnt stc s hot : ℚ) then some (s, (cnt stc s hot : ℚ) - hotAvg) else none))

/-- The receiver list built at the top of each planner iteration: every server
whose current hot-table count is strictly below `hot_avg`, weighted by the
deficit, sorted by descending weight. -/
def receiversOf (servers : List String) (stc : SCDict) (hot : String) (hotAvg : ℚ) :
    List (String × ℚ) :=
  sortDesc (servers.filterMap (fun s =>
    if (cnt stc s hot : ℚ) < hotAvg then some (s, hotAvg - (cnt stc s hot : ℚ)) else none))

/-- The score of one cold-table candidate `t` on the receiver:
`(count on receiver − table average)`, minus `0.5` when
`count on donor + 1 > table average + 1`. -/
def coldScore (tblAvg : String → ℚ) (stcD stcR : List (String × Int)) (t : String) : ℚ :=
  let base : ℚ := ((dGetD stcR t 0 : Int) : ℚ) - tblAvg t
  if tblAvg t + 1 < ((dGetD stcD t 0 : Int) : ℚ) + 1 then base - 1/2 else base

/-- The fold over `str_regions.get(receiver_server, {}).items()` keeping the
best `(score, table, first region)` seen so far; the running best is updated
only on a strictly greater score, so ties keep the first encountered table. -/
def pickColdAux (tblAvg : String → ℚ) (hot : String) (stcD stcR : List (String × Int)) :
    List (String × List String) → Option (ℚ × String × String) → Option (ℚ × String × String)
  | [], best => best
  | (t, rs) :: rest, best =>
    pickColdAux tblAvg hot stcD stcR rest
      (if t = hot then best
       else match rs with
         | [] => best
         | r :: _ =>
           let score := coldScore tblAvg stcD stcR t
           match best with
           | none => some (score, t, r)
           | some b => if b.1 < score then some (score, t, r) else some b)

/-- Selection of the cold candidate on one receiver for one donor
(lines 185-205 of the source): best score over all non-hot tables with a
non-empty region list there. -/
def pickCold (tblAvg : String → ℚ) (hot : String) (stcD stcR : List (String × Int))
    (items : List (String × List String)) : Option (ℚ × String × String) :=
  pickColdAux tblAvg hot stcD stcR items none

/-- The inner receiver loop: first receiver (in priority order) offering a
cold candidate for the fixed donor yields the swap. -/
def findReceiver (tblAvg : String → ℚ) (hot : String) (stc : SCDict) (regs : SRDict)
    (donor hotRegion : String) : List (String × ℚ) → Option Swap
  | [] => none
  | (recv, _) :: rest =>
    match pickCold tblAvg hot (dGetD stc donor []) (dGetD stc recv []) (dGetD regs recv []) with
    | some (_, ct, cr) => some ⟨hotRegion, cr, ct, donor, recv⟩
    | none => findReceiver tblAvg hot stc regs donor hotRegion rest

/-- The outer donor loop: donors in priority order; a donor with no hot-table
region is skipped; the first donor/receiver pair yielding a cold candidate
produces the iteration's swap. -/
def findSwap (tblAvg : String → ℚ) (hot : String) (stc : SCDict) (regs : SRDict)
    (receivers : List (String × ℚ)) : List (String × ℚ) → Option Swap
  | [] => none
  | (donor, _) :: rest =>
    match dGetD (dGetD regs donor []) hot [] with
    | [] => findSwap tblAvg hot stc regs receivers rest
    | hr :: _ =>
      match findReceiver tblAvg hot stc regs donor hr receivers with
      | some sw => some sw
      | none => findSwap tblAvg hot stc regs receivers rest

/-- `stc[s][t] = stc[s].get(t, 0) + δ` (also modelling `stc[s][t] -= 1`,
which in every state the planner reaches has the key present). -/
def bump (stc : SCDict) (s t : String) (δ : Int) : SCDict :=
  dSet stc s (dSet (dGetD stc s []) t (dGetD (dGetD stc s []) t 0 + δ))

/-- `str_regions[s][t].remove(r)`: drop the first occurrence of `r`. -/
def moveRegionOut (regs : SRDict) (s t r : String) : SRDict :=
  dSet regs s (dSet (dGetD regs s []) t ((dGetD (dGetD regs s []) t []).erase r))

/-- `str_regions[s].setdefault(t, []).append(r)` as written on
lines 221-223 / 228-230 of the source. -/
def moveRegionIn (regs : SRDict) (s t r : String) : SRDict :=
  dSet regs s (dSet (dGetD regs s []) t ((dGetD (dGetD regs s []) t []) ++ [r]))

/-- The state update applied immediately after a swap is recorded
(lines 217-230 of the source). -/
def applySwap (hot : String) (st : PState) (sw : Swap) : PState :=
  let stc1 := bump st.stc sw.source hot (-1)
  let stc2 := bump stc1 sw.target hot 1
  let rg1 := moveRegionOut st.regs sw.source hot sw.hotRegion
  let rg2 := moveRegionIn rg1 sw.target hot sw.hotRegion
  let stc3 := bump stc2 sw.target sw.coldTable (-1)
  let stc4 := bump stc3 sw.source sw.coldTable 1
  let rg3 := moveRegionOut rg2 sw.target sw.coldTable sw.coldRegion
  let rg4 := moveRegionIn rg3 sw.source sw.coldTable sw.coldRegion
  ⟨stc4, rg4⟩

/-- The greedy loop of `compute_balance_plan`, fuelled by the remaining
iteration budget: classify donors and receivers, stop when either list is
empty or no pair yields a swap, otherwise record the swap, apply it to the
working state and continue. -/
def planLoop (tblAvg : String → ℚ) (hot : String) (servers : List String) (hotAvg : ℚ) :
    Nat → PState → List Swap
  | 0, _ => []
  | fuel + 1, st =>
    let donors := donorsOf servers st.stc hot hotAvg
    let receivers := receiversOf servers st.stc hot hotAvg
    if donors = [] ∨ receivers = [] then []
    else
      match findSwap tblAvg hot st.stc st.regs receivers donors with
      | none => []
      | some sw => sw :: planLoop tblAvg hot servers hotAvg fuel (applySwap hot st sw)

/-- `compute_balance_plan(hot_table, server_table_count, region_info,
server_table_regions)`: empty snapshot yields an empty plan; otherwise the
per-table averages are computed once from the original snapshot and the greedy
loop runs on a working copy with the iteration cap 1000. -/
def computeBalancePlan (hot : String) (stc : SCDict) (regs : SRDict) : List Swap :=
  let servers := stc.map Prod.fst
  if servers = [] then []
  else planLoop (tableAvgQ stc) hot servers (tableAvgQ stc hot) 1000 ⟨stc, regs⟩

/-- Replay of a swap list against a state, as the planner (and the reporting
simulation in `main`) applies it. -/
def replay (hot : String) (st : PState) (plan : List Swap) : PState :=
  plan.foldl (applySwap hot) st

/-- The working state reached after replaying the first `k` swaps of the plan
against the snapshot: the planner's state at the start of iteration `k + 1`. -/
def preState (hot : String) (stc : SCDict) (regs : SRDict) (k : Nat) : PState :=
  replay hot ⟨stc, regs⟩ ((computeBalancePlan hot stc regs).take k)

/-- `server_fullname.get(source, source)` in `generate_plan`: resolve a short
host through the mapping, falling back to the host itself. -/
def resolveServer (fullname : List (String × String)) (s : String) : String :=
  dGetD fullname s s

/-- One `move` directive of the exported script: a region and the destination
server identity written into the file. -/
structure MoveDirective where
  region : String
  dest : String
deriving DecidableEq, Repr

/-- The two relocation directives `generate_plan` writes for one swap
(lines 271-278 of the source): the hot region to the receiver's resolved
identity, the cold region to the donor's resolved identity. -/
def swapDirectives (fullname : List (String × String)) (sw : Swap) : List MoveDirective :=
  [⟨sw.hotRegion, resolveServer fullname sw.target⟩,
   ⟨sw.coldRegion, resolveServer fullname sw.source⟩]

/-- Outcome of one run of `main` (file writing modelled by the flag of
`finished`). -/
inductive RunResult where
  | errNoRegions : RunResult
  | errTableNotFound : RunResult
  | finished : List Swap → Bool → RunResult
deriving DecidableEq, Repr

/-- The control flow of `main` after parsing: empty snapshot and absent hot
table abort with an error before any planning; otherwise the plan is computed
and the output file is written exactly when the plan is non-empty and
`--dry-run` was not given. -/
def runMain (stc : SCDict) (regs : SRDict) (hot : String) (dryRun : Bool) : RunResult :=
  if stc = [] then RunResult.errNoRegions
  else if stcTotal stc hot = 0 then RunResult.errTableNotFound
  else
    let plan := computeBalancePlan hot stc regs
    if plan = [] then RunResult.finished [] false
    else RunResult.finished plan (!dryRun)

/-- Internal consistency of a working state: every count equals the length of
the corresponding region list. -/
def consistent (st : PState) : Prop :=
  ∀ s t, cnt st.stc s t = ((rgs st.regs s t).length : Int)

/-- Every per-server table-to-regions dictionary has pairwise distinct keys
(true of every dictionary Python ever builds). -/
def wfInner (regs : SRDict) : Prop :=
  ∀ p ∈ regs, (p.2.map Prod.fst).Nodup

/-- The planner found `sw` at state `st`: the donor/receiver search over the
classification lists of `st` returns exactly `sw`. -/
def goodStep (tblAvg : String → ℚ) (hot : String) (servers : List String) (hotAvg : ℚ)
    (st : PState) (sw : Swap) : Prop :=
  findSwap tblAvg hot st.stc st.regs (receiversOf servers st.stc hot hotAvg)
    (donorsOf servers st.stc hot hotAvg) = some sw

section DictLemmas

variable {β : Type}

theorem dGet_dSet (d : List (String × β)) (k k' : String) (v : β) :
    dGet (dSet d k v) k' = if k' = k then some v else dGet d k' := by
  induction d with
  | nil => by_cases h : k' = k <;> simp [dSet, dGet, h]
  | cons p rest ih =>
    obtain ⟨k0, v0⟩ := p
    by_cases hk : k = k0
    · subst hk
      by_cases h : k' = k <;> simp [dSet, dGet, h]
    · by_cases h' : k' = k0
      · have h2 : k' ≠ k := by
          rw [h']
          exact fun hh => hk hh.symm
        have h3 : k0 ≠ k := fun hh => hk hh.symm
        simp [dSet, dGet, hk, h', h2, h3]
      · simp [dSet, dGet, hk, h', ih]

theorem dGetD_dSet (d : List (String × β)) (k k' : String) (v dflt : β) :
    dGetD (dSet d k v) k' dflt = if k' = k then v else dGetD d k' dflt := by
  by_cases h : k' = k <;> simp [dGetD, dGet_dSet, h]

theorem dGet_mem {d : List (String × β)} {k : String} {v : β}
    (h : dGet d k = some v) : (k, v) ∈ d := by
  induction d with
  | nil => simp [dGet] at h
  | cons p rest ih =>
    obtain ⟨k0, v0⟩ := p
    by_cases hk : k = k0
    · subst hk
      simp [dGet] at h
      simp [h]
    · simp [dGet, hk] at h
      exact List.mem_cons_of_mem _ (ih h)

theorem mem_dGet {d : List (String × β)} {k : String} {v : β}
    (hnd : (d.map Prod.fst).Nodup) (h : (k, v) ∈ d) : dGet d k = some v := by
  induction d with
  | nil => simp at h
  | cons p rest ih =>
    obtain ⟨k0, v0⟩ := p
    simp only [List.map_cons, List.nodup_cons] at hnd
    rcases List.mem_cons.mp h with h' | h'
    · obtain ⟨h1, h2⟩ := Prod.mk.injEq .. ▸ h'
      subst h1; subst h2
      simp [dGet]
    · have hk : k ≠ k0 := by
        rintro rfl
        exact hnd.1 (List.mem_map.mpr ⟨(k, v), h', rfl⟩)
      simp [dGet, hk]
      exact ih hnd.2 h'

theorem mem_dSet {d : List (String × β)} {k : String} {v : β} {p : String × β}
    (h : p ∈ dSet d k v) : p = (k, v) ∨ p ∈ d := by
  induction d with
  | nil => simpa [dSet] using h
  | cons q rest ih =>
    obtain ⟨k0, v0⟩ := q
    by_cases hk : k = k0
    · subst hk
      rcases List.mem_cons.mp (by simpa [dSet] using h) with h' | h'
      · exact Or.inl h'
      · exact Or.inr (List.mem_cons_of_mem _ h')
    · rcases List.mem_cons.mp (by simpa [dSet, hk] using h) with h' | h'
      · exact Or.inr (by simp [h'])
      · rcases ih h' with h'' | h''
        · exact Or.inl h''
        · exact Or.inr (List.mem_cons_of_mem _ h'')

theorem keys_dSet_sub {d : List (String × β)} {k a : String} {v : β}
    (h : a ∈ (dSet d k v).map Prod.fst) : a = k ∨ a ∈ d.map Prod.fst := by
  rcases List.mem_map.mp h with ⟨p, hp, rfl⟩
  rcases mem_dSet hp with h' | h'
  · subst h'; exact Or.inl rfl
  · exact Or.inr (List.mem_map.mpr ⟨p, h', rfl⟩)

theorem keys_dSet_nodup {d : List (String × β)} {k : String} {v : β}
    (h : (d.map Prod.fst).Nodup) : ((dSet d k v).map Prod.fst).Nodup := by
  induction d with
  | nil => simp [dSet]
  | cons q rest ih =>
    obtain ⟨k0, v0⟩ := q
    simp only [List.map_cons, List.nodup_cons] at h
    by_cases hk : k = k0
    · subst hk
      have hd : dSet ((k, v0) :: rest) k v = (k, v) :: rest := by simp [dSet]
      rw [hd]
      simp only [List.map_cons, List.nodup_cons]
      exact ⟨h.1, h.2⟩
    · have hd : dSet ((k0, v0) :: rest) k v = (k0, v0) :: dSet rest k v := by simp [dSet, hk]
      rw [hd]
      simp only [List.map_cons, List.nodup_cons]
      refine ⟨fun hmem => ?_, ih h.2⟩
      rcases keys_dSet_sub hmem with h' | h'
      · exact hk h'.symm
      · exact h.1 h'

end DictLemmas

section ViewLemmas

theorem cnt_bump (stc : SCDict) (s t s' t' : String) (δ : Int) :
    cnt (bump stc s t δ) s' t' =
      cnt stc s' t' + (if s' = s ∧ t' = t then δ else 0) := by
  by_cases hs : s' = s
  · subst hs
    by_cases ht : t' = t
    · subst ht
      simp [cnt, bump, dGetD_dSet]
    · simp [cnt, bump, dGetD_dSet, ht]
  · simp [cnt, bump, dGetD_dSet, hs]

theorem rgs_moveRegionOut (regs : SRDict) (s t s' t' r : String) :
    rgs (moveRegionOut regs s t r) s' t' =
      if s' = s ∧ t' = t then (rgs regs s t).erase r else rgs regs s' t' := by
  by_cases hs : s' = s
  · subst hs
    by_cases ht : t' = t
    · subst ht
      simp [rgs, moveRegionOut, dGetD_dSet]
    · simp [rgs, moveRegionOut, dGetD_dSet, ht]
  · simp [rgs, moveRegionOut, dGetD_dSet, hs]

theorem rgs_moveRegionIn (regs : SRDict) (s t s' t' r : String) :
    rgs (moveRegionIn regs s t r) s' t' =
      if s' = s ∧ t' = t then rgs regs s t ++ [r] else rgs regs s' t' := by
  by_cases hs : s' = s
  · subst hs
    by_cases ht : t' = t
    · subst ht
      simp [rgs, moveRegionIn, dGetD_dSet]
    · simp [rgs, moveRegionIn, dGetD_dSet, ht]
  · simp [rgs, moveRegionIn, dGetD_dSet, hs]

theorem cnt_applySwap (hot : String) (st : PState) (sw : Swap) (s t : String) :
    cnt (applySwap hot st sw).stc s t =
      cnt st.stc s t
        + (if s = sw.source ∧ t = hot then -1 else 0)
        + (if s = sw.target ∧ t = hot then 1 else 0)
        + (if s = sw.target ∧ t = sw.coldTable then -1 else 0)
        + (if s = sw.source ∧ t = sw.coldTable then 1 else 0) := by
  simp only [applySwap, cnt_bump]

theorem stcTotal_bump (stc : SCDict) (s t u : String) (δ : Int) :
    stcTotal (bump stc s t δ) u = stcTotal stc u + (if u = t then δ else 0) := by
  induction stc with
  | nil =>
    by_cases h : u = t <;> simp [stcTotal, bump, dSet, dGetD_dSet, dGetD, dGet, h]
  | cons p rest ih =>
    obtain ⟨k, dk⟩ := p
    by_cases hs : s = k
    · subst hs
      have hb : bump ((s, dk) :: rest) s t δ =
          (s, dSet dk t (dGetD dk t 0 + δ)) :: rest := by
        simp [bump, dSet, dGetD, dGet]
      rw [hb]
      simp only [stcTotal, List.map_cons, List.sum_cons, dGetD_dSet]
      by_cases h : u = t
      · rw [if_pos h, if_pos h, h]
        ring
      · rw [if_neg h, if_neg h]
        ring
    · have hb : bump ((k, dk) :: rest) s t δ = (k, dk) :: bump rest s t δ := by
        simp [bump, dSet, dGetD, dGet, hs, Ne.symm hs]
      rw [hb]
      simp only [stcTotal, List.map_cons, List.sum_cons] at ih ⊢
      rw [ih]
      ring

theorem stcTotal_applySwap (hot : String) (st : PState) (sw : Swap) (u : String) :
    stcTotal (applySwap hot st sw).stc u = stcTotal st.stc u := by
  simp only [applySwap, stcTotal_bump]
  split_ifs <;> omega

theorem stcTotal_replay (hot : String) (st : PState) (plan : List Swap) (u : String) :
    stcTotal (replay hot st plan).stc u = stcTotal st.stc u := by
  induction plan generalizing st with
  | nil => rfl
  | cons sw rest ih =>
    show stcTotal (replay hot (applySwap hot st sw) rest).stc u = _
    rw [ih, stcTotal_applySwap]

end ViewLemmas

section SortLemmas

theorem mem_insertByWeight (x y : String × ℚ) (l : List (String × ℚ)) :
    y ∈ insertByWeight x l ↔ y = x ∨ y ∈ l := by
  induction l with
  | nil => simp [insertByWeight]
  | cons z zs ih =>
    by_cases h : z.2 ≤ x.2
    · simp [insertByWeight, h]
    · simp only [insertByWeight, if_neg h, List.mem_cons, ih]
      tauto

theorem mem_sortDesc (y : String × ℚ) (l : List (String × ℚ)) :
    y ∈ sortDesc l ↔ y ∈ l := by
  induction l with
  | nil => simp [sortDesc]
  | cons z zs ih => simp [sortDesc, mem_insertByWeight, ih]

theorem pairwise_insertByWeight (x : String × ℚ) (l : List (String × ℚ))
    (h : l.Pairwise (fun a b => b.2 ≤ a.2)) :
    (insertByWeight x l).Pairwise (fun a b => b.2 ≤ a.2) := by
  induction l with
  | nil => simp [insertByWeight]
  | cons z zs ih =>
    rcases List.pairwise_cons.mp h with ⟨hz, hzs⟩
    by_cases hle : z.2 ≤ x.2
    · have he : insertByWeight x (z :: zs) = x :: z :: zs := by
        simp [insertByWeight, hle]
      rw [he, List.pairwise_cons]
      refine ⟨?_, h⟩
      intro a ha
      rcases List.mem_cons.mp ha with rfl | ha'
      · exact hle
      · exact le_trans (hz a ha') hle
    · have he : insertByWeight x (z :: zs) = z :: insertByWeight x zs := by
        simp [insertByWeight, hle]
      rw [he, List.pairwise_cons]
      refine ⟨?_, ih hzs⟩
      intro a ha
      rcases (mem_insertByWeight x a zs).mp ha with rfl | ha'
      · exact le_of_lt (lt_of_not_le hle)
      · exact hz a ha'

theorem pairwise_sortDesc (l : List (String × ℚ)) :
    (sortDesc l).Pairwise (fun a b => b.2 ≤ a.2) := by
  induction l with
  | nil => simp [sortDesc]
  | cons z zs ih => exact pairwise_insertByWeight z (sortDesc zs) ih

theorem mem_donorsOf (servers : List String) (stc : SCDict) (hot : String) (hotAvg : ℚ)
    (s : String) (w : ℚ) :
    (s, w) ∈ donorsOf servers stc hot hotAvg ↔
      s ∈ servers ∧ hotAvg < (cnt stc s hot : ℚ) ∧ w = (cnt stc s hot : ℚ) - hotAvg := by
  simp only [donorsOf, mem_sortDesc, List.mem_filterMap]
  constructor
  · rintro ⟨a, ha, hf⟩
    by_cases hc : hotAvg < (cnt stc a hot : ℚ)
    · rw [if_pos hc] at hf
      obtain ⟨rfl, rfl⟩ := Prod.mk.injEq .. ▸ Option.some.inj hf
      exact ⟨ha, hc, rfl⟩
    · rw [if_neg hc] at hf
      exact absurd hf (by simp)
  · rintro ⟨hs, hc, rfl⟩
    exact ⟨s, hs, by rw [if_pos hc]⟩

theorem mem_receiversOf (servers : List String) (stc : SCDict) (hot : String) (hotAvg : ℚ)
    (s : String) (w : ℚ) :
    (s, w) ∈ receiversOf servers stc hot hotAvg ↔
      s ∈ servers ∧ (cnt stc s hot : ℚ) < hotAvg ∧ w = hotAvg - (cnt stc s hot : ℚ) := by
  simp only [receiversOf, mem_sortDesc, List.mem_filterMap]
  constructor
  · rintro ⟨a, ha, hf⟩
    by_cases hc : (cnt stc a hot : ℚ) < hotAvg
    · rw [if_pos hc] at hf
      obtain ⟨rfl, rfl⟩ := Prod.mk.injEq .. ▸ Option.some.inj hf
      exact ⟨ha, hc, rfl⟩
    · rw [if_neg hc] at hf
      exact absurd hf (by simp)
  · rintro ⟨hs, hc, rfl⟩
    exact ⟨s, hs, by rw [if_pos hc]⟩

end SortLemmas

section SearchLemmas

theorem pickColdAux_cons (A : String → ℚ) (hot : String) (dD dR : List (String × Int))
    (t0 : String) (rs0 : List String) (rest : List (String × List String))
    (best : Option (ℚ × String × String)) :
    pickColdAux A hot dD dR ((t0, rs0) :: rest) best =
      pickColdAux A hot dD dR rest
        (if t0 = hot then best
         else match rs0 with
           | [] => best
           | r :: _ =>
             match best with
             | none => some (coldScore A dD dR t0, t0, r)
             | some b =>
               if b.1 < coldScore A dD dR t0 then some (coldScore A dD dR t0, t0, r)
               else some b) := rfl

theorem pickColdAux_cons_hot {A : String → ℚ} {hot : String} {dD dR : List (String × Int)}
    {t0 : String} {rs0 : List String} {rest : List (String × List String)}
    {best : Option (ℚ × String × String)} (ht0 : t0 = hot) :
    pickColdAux A hot dD dR ((t0, rs0) :: rest) best = pickColdAux A hot dD dR rest best := by
  have h1 := pickColdAux_cons A hot dD dR t0 rs0 rest best
  rw [if_pos ht0] at h1
  exact h1

theorem pickColdAux_cons_nil {A : String → ℚ} {hot : String} {dD dR : List (String × Int)}
    {t0 : String} {rest : List (String × List String)}
    {best : Option (ℚ × String × String)} :
    pickColdAux A hot dD dR ((t0, []) :: rest) best = pickColdAux A hot dD dR rest best := by
  have h1 := pickColdAux_cons A hot dD dR t0 [] rest best
  by_cases ht0 : t0 = hot
  · rw [if_pos ht0] at h1
    exact h1
  · rw [if_neg ht0] at h1
    exact h1

theorem pickColdAux_cons_none {A : String → ℚ} {hot : String} {dD dR : List (String × Int)}
    {t0 r0 : String} {tl0 : List String} {rest : List (String × List String)}
    (ht0 : t0 ≠ hot) :
    pickColdAux A hot dD dR ((t0, r0 :: tl0) :: rest) none =
      pickColdAux A hot dD dR rest (some (coldScore A dD dR t0, t0, r0)) := by
  have h1 := pickColdAux_cons A hot dD dR t0 (r0 :: tl0) rest none
  rw [if_neg ht0] at h1
  exact h1

theorem pickColdAux_cons_lt {A : String → ℚ} {hot : String} {dD dR : List (String × Int)}
    {t0 r0 : String} {tl0 : List String} {rest : List (String × List String)}
    {b : ℚ × String × String} (ht0 : t0 ≠ hot) (hlt : b.1 < coldScore A dD dR t0) :
    pickColdAux A hot dD dR ((t0, r0 :: tl0) :: rest) (some b) =
      pickColdAux A hot dD dR rest (some (coldScore A dD dR t0, t0, r0)) := by
  have h1 := pickColdAux_cons A hot dD dR t0 (r0 :: tl0) rest (some b)
  rw [if_neg ht0] at h1
  refine h1.trans (congrArg (pickColdAux A hot dD dR rest) ?_)
  exact if_pos hlt

theorem pickColdAux_cons_ge {A : String → ℚ} {hot : String} {dD dR : List (String × Int)}
    {t0 r0 : String} {tl0 : List String} {rest : List (String × List String)}
    {b : ℚ × String × String} (ht0 : t0 ≠ hot) (hlt : ¬ b.1 < coldScore A dD dR t0) :
    pickColdAux A hot dD dR ((t0, r0 :: tl0) :: rest) (some b) =
      pickColdAux A hot dD dR rest (some b) := by
  have h1 := pickColdAux_cons A hot dD dR t0 (r0 :: tl0) rest (some b)
  rw [if_neg ht0] at h1
  refine h1.trans (congrArg (pickColdAux A hot dD dR rest) ?_)
  exact if_neg hlt

set_option maxHeartbeats 1600000 in
theorem pickColdAux_gen (A : String → ℚ) (hot : String) (dD dR : List (String × Int))
    (items : List (String × List String)) :
    ∀ (best : Option (ℚ × String × String)) (s : ℚ) (t r : String),
      pickColdAux A hot dD dR items best = some (s, t, r) →
      (best = some (s, t, r) ∧
        ∀ q ∈ items, q.1 ≠ hot → q.2 ≠ [] → coldScore A dD dR q.1 ≤ s)
      ∨ (∃ pre tl post, items = pre ++ (t, r :: tl) :: post ∧ t ≠ hot ∧
          s = coldScore A dD dR t ∧
          (∀ b, best = some b → b.1 < s) ∧
          (∀ q ∈ pre, q.1 ≠ hot → q.2 ≠ [] → coldScore A dD dR q.1 < s) ∧
          (∀ q ∈ post, q.1 ≠ hot → q.2 ≠ [] → coldScore A dD dR q.1 ≤ s)) := by
  induction items with
  | nil =>
    intro best s t r h
    left
    exact ⟨h, by simp⟩
  | cons q0 rest ih =>
    obtain ⟨t0, rs0⟩ := q0
    intro best s t r h
    by_cases ht0 : t0 = hot
    · rw [pickColdAux_cons_hot ht0] at h
      rcases ih best s t r h with ⟨hb, hall⟩ | ⟨pre, tl, post, hdec, hth, hs, hbest, hpre, hpost⟩
      · left
        refine ⟨hb, ?_⟩
        intro q hq hq1 hq2
        rcases List.mem_cons.mp hq with rfl | hq'
        · exact absurd ht0 hq1
        · exact hall q hq' hq1 hq2
      · right
        refine ⟨(t0, rs0) :: pre, tl, post, by rw [hdec]; rfl, hth, hs, hbest, ?_, hpost⟩
        intro q hq hq1 hq2
        rcases List.mem_cons.mp hq with rfl | hq'
        · exact absurd ht0 hq1
        · exact hpre q hq' hq1 hq2
    · cases rs0 with
      | nil =>
        rw [pickColdAux_cons_nil] at h
        rcases ih best s t r h with ⟨hb, hall⟩ | ⟨pre, tl, post, hdec, hth, hs, hbest, hpre, hpost⟩
        · left
          refine ⟨hb, ?_⟩
          intro q hq hq1 hq2
          rcases List.mem_cons.mp hq with rfl | hq'
          · exact absurd rfl hq2
          · exact hall q hq' hq1 hq2
        · right
          refine ⟨(t0, []) :: pre, tl, post, by rw [hdec]; rfl, hth, hs, hbest, ?_, hpost⟩
          intro q hq hq1 hq2
          rcases List.mem_cons.mp hq with rfl | hq'
          · exact absurd rfl hq2
          · exact hpre q hq' hq1 hq2
      | cons r0 tl0 =>
        cases best with
        | none =>
          rw [pickColdAux_cons_none ht0] at h
          rcases ih _ s t r h with ⟨hb, hall⟩ | ⟨pre, tl, post, hdec, hth, hs, hbest, hpre, hpost⟩
          · obtain ⟨h1, h2, h3⟩ : coldScore A dD dR t0 = s ∧ t0 = t ∧ r0 = r := by
              have hh := Option.some.inj hb
              simp only [Prod.mk.injEq] at hh
              exact hh
            subst h2; subst h3
            right
            refine ⟨[], tl0, rest, by simp, ht0, h1.symm, by simp, by simp, ?_⟩
            intro q hq hq1 hq2
            exact hall q hq hq1 hq2
          · right
            refine ⟨(t0, r0 :: tl0) :: pre, tl, post, by rw [hdec]; rfl, hth, hs, by simp, ?_, hpost⟩
            intro q hq hq1 hq2
            rcases List.mem_cons.mp hq with rfl | hq'
            · exact hbest _ rfl
            · exact hpre q hq' hq1 hq2
        | some b =>
          by_cases hlt : b.1 < coldScore A dD dR t0
          · rw [pickColdAux_cons_lt ht0 hlt] at h
            rcases ih _ s t r h with ⟨hb, hall⟩ | ⟨pre, tl, post, hdec, hth, hs, hbest, hpre, hpost⟩
            · obtain ⟨h1, h2, h3⟩ : coldScore A dD dR t0 = s ∧ t0 = t ∧ r0 = r := by
                have hh := Option.some.inj hb
                simp only [Prod.mk.injEq] at hh
                exact hh
              subst h2; subst h3
              right
              refine ⟨[], tl0, rest, by simp, ht0, h1.symm, ?_, by simp, ?_⟩
              · intro b' hb'
                obtain rfl := Option.some.inj hb'
                exact h1 ▸ hlt
              · intro q hq hq1 hq2
                exact hall q hq hq1 hq2
            · right
              refine ⟨(t0, r0 :: tl0) :: pre, tl, post, by rw [hdec]; rfl, hth, hs, ?_, ?_, hpost⟩
              · intro b' hb'
                obtain rfl := Option.some.inj hb'
                exact lt_trans hlt (hbest _ rfl)
              · intro q hq hq1 hq2
                rcases List.mem_cons.mp hq with rfl | hq'
                · exact hbest _ rfl
                · exact hpre q hq' hq1 hq2
          · rw [pickColdAux_cons_ge ht0 hlt] at h
            rcases ih _ s t r h with ⟨hb, hall⟩ | ⟨pre, tl, post, hdec, hth, hs, hbest, hpre, hpost⟩
            · left
              refine ⟨hb, ?_⟩
              intro q hq hq1 hq2
              rcases List.mem_cons.mp hq with rfl | hq'
              · have hbs : b.1 = s := by
                  have := Option.some.inj hb
                  exact congrArg Prod.fst this
                exact hbs ▸ le_of_not_lt hlt
              · exact hall q hq' hq1 hq2
            · right
              refine ⟨(t0, r0 :: tl0) :: pre, tl, post, by rw [hdec]; rfl, hth, hs, hbest, ?_, hpost⟩
              intro q hq hq1 hq2
              rcases List.mem_cons.mp hq with rfl | hq'
              · exact lt_of_le_of_lt (le_of_not_lt hlt) (hbest b rfl)
              · exact hpre q hq' hq1 hq2

theorem pickCold_spec (A : String → ℚ) (hot : String) (dD dR : List (String × Int))
    (items : List (String × List String)) (s : ℚ) (t r : String)
    (h : pickCold A hot dD dR items = some (s, t, r)) :
    ∃ pre tl post, items = pre ++ (t, r :: tl) :: post ∧ t ≠ hot ∧
      s = coldScore A dD dR t ∧
      (∀ q ∈ pre, q.1 ≠ hot → q.2 ≠ [] → coldScore A dD dR q.1 < s) ∧
      (∀ q ∈ post, q.1 ≠ hot → q.2 ≠ [] → coldScore A dD dR q.1 ≤ s) := by
  rcases pickColdAux_gen A hot dD dR items none s t r h with ⟨hb, _⟩ | hrest
  · exact absurd hb (by simp)
  · obtain ⟨pre, tl, post, hdec, hth, hs, _, hpre, hpost⟩ := hrest
    exact ⟨pre, tl, post, hdec, hth, hs, hpre, hpost⟩

theorem pickCold_mem (A : String → ℚ) (hot : String) (dD dR : List (String × Int))
    (items : List (String × List String)) (s : ℚ) (t r : String)
    (h : pickCold A hot dD dR items = some (s, t, r)) :
    t ≠ hot ∧ ∃ tl, (t, r :: tl) ∈ items := by
  obtain ⟨pre, tl, post, hdec, hth, _, _, _⟩ := pickCold_spec A hot dD dR items s t r h
  exact ⟨hth, tl, by rw [hdec]; simp⟩

theorem findReceiver_some (A : String → ℚ) (hot : String) (stc : SCDict) (regs : SRDict)
    (d hr : String) :
    ∀ (rcvs : List (String × ℚ)) (sw : Swap),
      findReceiver A hot stc regs d hr rcvs = some sw →
      sw.source = d ∧ sw.hotRegion = hr ∧
      ∃ rpre w rpost s, rcvs = rpre ++ (sw.target, w) :: rpost ∧
        (∀ q ∈ rpre,
          pickCold A hot (dGetD stc d []) (dGetD stc q.1 []) (dGetD regs q.1 []) = none) ∧
        pickCold A hot (dGetD stc d []) (dGetD stc sw.target []) (dGetD regs sw.target [])
          = some (s, sw.coldTable, sw.coldRegion) := by
  intro rcvs
  induction rcvs with
  | nil => intro sw h; exact absurd h (by simp [findReceiver])
  | cons q0 rest ih =>
    obtain ⟨rv, w0⟩ := q0
    intro sw h
    rcases hp : pickCold A hot (dGetD stc d []) (dGetD stc rv []) (dGetD regs rv []) with
      _ | ⟨s0, ct, cr⟩
    · have hstep : findReceiver A hot stc regs d hr ((rv, w0) :: rest) =
          findReceiver A hot stc regs d hr rest := by
        simp [findReceiver, hp]
      rw [hstep] at h
      obtain ⟨h1, h2, rpre, w, rpost, s, hdec, hpre, hpick⟩ := ih sw h
      refine ⟨h1, h2, (rv, w0) :: rpre, w, rpost, s, by rw [hdec]; rfl, ?_, hpick⟩
      intro q hq
      rcases List.mem_cons.mp hq with rfl | hq'
      · exact hp
      · exact hpre q hq'
    · have hstep : findReceiver A hot stc regs d hr ((rv, w0) :: rest) =
          some ⟨hr, cr, ct, d, rv⟩ := by
        simp [findReceiver, hp]
      rw [hstep] at h
      obtain rfl := (Option.some.inj h).symm
      exact ⟨rfl, rfl, [], w0, rest, s0, rfl, by simp, hp⟩

theorem findSwap_some (A : String → ℚ) (hot : String) (stc : SCDict) (regs : SRDict)
    (rcvs : List (String × ℚ)) :
    ∀ (ds : List (String × ℚ)) (sw : Swap),
      findSwap A hot stc regs rcvs ds = some sw →
      ∃ dpre w dpost, ds = dpre ++ (sw.source, w) :: dpost ∧
        (∀ q ∈ dpre, ∀ hr0 tl0, dGetD (dGetD regs q.1 []) hot [] = hr0 :: tl0 →
          findReceiver A hot stc regs q.1 hr0 rcvs = none) ∧
        (∃ tl, dGetD (dGetD regs sw.source []) hot [] = sw.hotRegion :: tl) ∧
        findReceiver A hot stc regs sw.source sw.hotRegion rcvs = some sw := by
  intro ds
  induction ds with
  | nil => intro sw h; exact absurd h (by simp [findSwap])
  | cons q0 rest ih =>
    obtain ⟨d0, w0⟩ := q0
    intro sw h
    rcases hl : dGetD (dGetD regs d0 []) hot [] with _ | ⟨hr, tl⟩
    · have hstep : findSwap A hot stc regs rcvs ((d0, w0) :: rest) =
          findSwap A hot stc regs rcvs rest := by
        simp [findSwap, hl]
      rw [hstep] at h
      obtain ⟨dpre, w, dpost, hdec, hpre, hhd, hfr⟩ := ih sw h
      refine ⟨(d0, w0) :: dpre, w, dpost, by rw [hdec]; rfl, ?_, hhd, hfr⟩
      intro q hq hr0 tl0 heq
      rcases List.mem_cons.mp hq with rfl | hq'
      · rw [hl] at heq
        exact absurd heq (by simp)
      · exact hpre q hq' hr0 tl0 heq
    · rcases hf : findReceiver A hot stc regs d0 hr rcvs with _ | sw0
      · have hstep : findSwap A hot stc regs rcvs ((d0, w0) :: rest) =
            findSwap A hot stc regs rcvs rest := by
          simp [findSwap, hl, hf]
        rw [hstep] at h
        obtain ⟨dpre, w, dpost, hdec, hpre, hhd, hfr⟩ := ih sw h
        refine ⟨(d0, w0) :: dpre, w, dpost, by rw [hdec]; rfl, ?_, hhd, hfr⟩
        intro q hq hr0 tl0 heq
        rcases List.mem_cons.mp hq with rfl | hq'
        · rw [hl] at heq
          obtain ⟨rfl, rfl⟩ : hr = hr0 ∧ tl = tl0 := by
            exact ⟨(List.cons.injEq .. ▸ heq).1, (List.cons.injEq .. ▸ heq).2⟩
          exact hf
        · exact hpre q hq' hr0 tl0 heq
      · have hstep : findSwap A hot stc regs rcvs ((d0, w0) :: rest) = some sw0 := by
          simp [findSwap, hl, hf]
        rw [hstep] at h
        obtain rfl := Option.some.inj h
        obtain ⟨h1, h2, _⟩ := findReceiver_some A hot stc regs d0 hr rcvs sw0 hf
        refine ⟨[], w0, rest, ?_, by simp, ⟨tl, by rw [h1, h2]; exact hl⟩, ?_⟩
        · rw [h1]
          rfl
        · rw [h1, h2]
          exact hf

theorem findSwap_facts (A : String → ℚ) (hot : String) (stc : SCDict) (regs : SRDict)
    (rcvs ds : List (String × ℚ)) (sw : Swap)
    (h : findSwap A hot stc regs rcvs ds = some sw) :
    (∃ w, (sw.source, w) ∈ ds) ∧ (∃ w, (sw.target, w) ∈ rcvs) ∧
    (∃ tl, dGetD (dGetD regs sw.source []) hot [] = sw.hotRegion :: tl) ∧
    (∃ tl, (sw.coldTable, sw.coldRegion :: tl) ∈ dGetD regs sw.target []) ∧
    sw.coldTable ≠ hot := by
  obtain ⟨dpre, w, dpost, hdec, _, hhd, hfr⟩ := findSwap_some A hot stc regs rcvs ds sw h
  obtain ⟨_, _, rpre, w2, rpost, s, hrdec, _, hpick⟩ :=
    findReceiver_some A hot stc regs sw.source sw.hotRegion rcvs sw hfr
  obtain ⟨hct, tl2, hmem⟩ :=
    pickCold_mem A hot (dGetD stc sw.source []) (dGetD stc sw.target [])
      (dGetD regs sw.target []) s sw.coldTable sw.coldRegion hpick
  exact ⟨⟨w, by rw [hdec]; simp⟩, ⟨w2, by rw [hrdec]; simp⟩, hhd, ⟨tl2, hmem⟩, hct⟩

end SearchLemmas

section LoopLemmas

theorem planLoop_succ (A : String → ℚ) (hot : String) (servers : List String) (avg : ℚ)
    (fuel : Nat) (st : PState) :
    planLoop A hot servers avg (fuel + 1) st =
      (if donorsOf servers st.stc hot avg = [] ∨ receiversOf servers st.stc hot avg = [] then []
       else
         match findSwap A hot st.stc st.regs (receiversOf servers st.stc hot avg)
             (donorsOf servers st.stc hot avg) with
         | none => []
         | some sw => sw :: planLoop A hot servers avg fuel (applySwap hot st sw)) := rfl

theorem planLoop_length (A : String → ℚ) (hot : String) (servers : List String) (avg : ℚ) :
    ∀ (fuel : Nat) (st : PState), (planLoop A hot servers avg fuel st).length ≤ fuel := by
  intro fuel
  induction fuel with
  | zero => intro st; simp [planLoop]
  | succ n ih =>
    intro st
    rw [planLoop_succ]
    split
    · simp
    · rcases hf : findSwap A hot st.stc st.regs (receiversOf servers st.stc hot avg)
          (donorsOf servers st.stc hot avg) with _ | sw
      · simp
      · simpa using Nat.succ_le_succ (ih (applySwap hot st sw))

theorem planLoop_cons {A : String → ℚ} {hot : String} {servers : List String} {avg : ℚ}
    {fuel : Nat} {st : PState} {sw : Swap} {rest : List Swap}
    (h : planLoop A hot servers avg fuel st = sw :: rest) :
    ∃ fuel', fuel = fuel' + 1 ∧ goodStep A hot servers avg st sw ∧
      rest = planLoop A hot servers avg fuel' (applySwap hot st sw) := by
  cases fuel with
  | zero => exact absurd h (by simp [planLoop])
  | succ n =>
    rw [planLoop_succ] at h
    split at h
    · exact absurd h (by simp)
    · rcases hf : findSwap A hot st.stc st.regs (receiversOf servers st.stc hot avg)
          (donorsOf servers st.stc hot avg) with _ | sw0
      · rw [hf] at h
        exact absurd h (by simp)
      · rw [hf] at h
        obtain ⟨rfl, hrest⟩ := List.cons.injEq .. ▸ h
        exact ⟨n, rfl, hf, hrest.symm⟩

theorem planLoop_get {A : String → ℚ} {hot : String} {servers : List String} {avg : ℚ} :
    ∀ (fuel : Nat) (st : PState) (k : Nat) (sw : Swap),
      (planLoop A hot servers avg fuel st).get? k = some sw →
      goodStep A hot servers avg
        (replay hot st ((planLoop A hot servers avg fuel st).take k)) sw := by
  intro fuel
  induction fuel with
  | zero => intro st k sw h; exact absurd h (by simp [planLoop])
  | succ n ih =>
    intro st k sw h
    rcases hp : planLoop A hot servers avg (n + 1) st with _ | ⟨sw0, rest⟩
    · rw [hp] at h
      exact absurd h (by simp)
    · obtain ⟨n', hn, hg, hrest⟩ := planLoop_cons hp
      obtain rfl : n' = n := by omega
      cases k with
      | zero =>
        rw [hp] at h
        obtain rfl : sw0 = sw := by simpa using h
        simpa [replay] using hg
      | succ k' =>
        rw [hp] at h
        have h2 : rest.get? k' = some sw := by simpa using h
        rw [hrest] at h2
        have hh := ih _ k' sw h2
        rw [← hrest] at hh
        simpa [replay] using hh

theorem goodStep_bounds {A : String → ℚ} {hot : String} {servers : List String} {avg : ℚ}
    {st : PState} {sw : Swap} (h : goodStep A hot servers avg st sw) :
    avg < (cnt st.stc sw.source hot : ℚ) ∧ (cnt st.stc sw.target hot : ℚ) < avg ∧
    sw.source ≠ sw.target ∧ sw.coldTable ≠ hot ∧
    sw.source ∈ servers ∧ sw.target ∈ servers := by
  obtain ⟨⟨w, hds⟩, ⟨w2, hrs⟩, _, _, hct⟩ :=
    findSwap_facts A hot st.stc st.regs (receiversOf servers st.stc hot avg)
      (donorsOf servers st.stc hot avg) sw h
  obtain ⟨hsmem, hsgt, _⟩ := (mem_donorsOf servers st.stc hot avg sw.source w).mp hds
  obtain ⟨htmem, htlt, _⟩ := (mem_receiversOf servers st.stc hot avg sw.target w2).mp hrs
  refine ⟨hsgt, htlt, ?_, hct, hsmem, htmem⟩
  rintro hes
  rw [hes] at hsgt
  exact absurd (lt_trans hsgt htlt) (lt_irrefl avg)

end LoopLemmas

section ConsistencyLemmas

theorem wfInner_dSet {regs : SRDict} {s t : String} {v : List String} (h : wfInner regs) :
    wfInner (dSet regs s (dSet (dGetD regs s []) t v)) := by
  intro p hp
  rcases mem_dSet hp with rfl | hp'
  · apply keys_dSet_nodup
    rcases hg : dGet regs s with _ | inner
    · simp [dGetD, hg]
    · have hin := h (s, inner) (dGet_mem hg)
      simpa [dGetD, hg] using hin
  · exact h p hp'

theorem wfInner_applySwap {hot : String} {st : PState} {sw : Swap} (h : wfInner st.regs) :
    wfInner (applySwap hot st sw).regs := by
  have h1 : wfInner (moveRegionOut st.regs sw.source hot sw.hotRegion) := wfInner_dSet h
  have h2 : wfInner (moveRegionIn (moveRegionOut st.regs sw.source hot sw.hotRegion)
      sw.target hot sw.hotRegion) := wfInner_dSet h1
  have h3 : wfInner (moveRegionOut (moveRegionIn (moveRegionOut st.regs sw.source hot
      sw.hotRegion) sw.target hot sw.hotRegion) sw.target sw.coldTable sw.coldRegion) :=
    wfInner_dSet h2
  exact wfInner_dSet h3

theorem goodStep_regions {A : String → ℚ} {hot : String} {servers : List String} {avg : ℚ}
    {st : PState} {sw : Swap} (h : goodStep A hot servers avg st sw) (hwf : wfInner st.regs) :
    (∃ tl, rgs st.regs sw.source hot = sw.hotRegion :: tl) ∧
    (∃ tl, rgs st.regs sw.target sw.coldTable = sw.coldRegion :: tl) := by
  obtain ⟨_, _, ⟨tl, hhd⟩, ⟨tl2, hmem⟩, _⟩ :=
    findSwap_facts A hot st.stc st.regs (receiversOf servers st.stc hot avg)
      (donorsOf servers st.stc hot avg) sw h
  refine ⟨⟨tl, hhd⟩, ⟨tl2, ?_⟩⟩
  rcases hg : dGet st.regs sw.target with _ | inner
  · have he : dGetD st.regs sw.target [] = [] := by
      rw [dGetD, hg]
      rfl
    rw [he] at hmem
    exact absurd hmem (List.not_mem_nil _)
  · have hinner : dGetD st.regs sw.target [] = inner := by
      rw [dGetD, hg]
      rfl
    rw [hinner] at hmem
    have hnd := hwf (sw.target, inner) (dGet_mem hg)
    have hget := mem_dGet hnd hmem
    rw [rgs, hinner, dGetD, hget]
    rfl

theorem rgs_applySwap {hot : String} {st : PState} {sw : Swap}
    (hsne : sw.source ≠ sw.target) (hct : sw.coldTable ≠ hot) (s t : String) :
    rgs (applySwap hot st sw).regs s t =
      if s = sw.source ∧ t = hot then (rgs st.regs sw.source hot).erase sw.hotRegion
      else if s = sw.target ∧ t = hot then rgs st.regs sw.target hot ++ [sw.hotRegion]
      else if s = sw.target ∧ t = sw.coldTable then
        (rgs st.regs sw.target sw.coldTable).erase sw.coldRegion
      else if s = sw.source ∧ t = sw.coldTable then
        rgs st.regs sw.source sw.coldTable ++ [sw.coldRegion]
      else rgs st.regs s t := by
  show rgs (moveRegionIn (moveRegionOut (moveRegionIn (moveRegionOut st.regs sw.source hot
      sw.hotRegion) sw.target hot sw.hotRegion) sw.target sw.coldTable sw.coldRegion)
      sw.source sw.coldTable sw.coldRegion) s t = _
  simp only [rgs_moveRegionIn, rgs_moveRegionOut]
  by_cases hs1 : s = sw.source
  · by_cases hs2 : s = sw.target
    · exact absurd (hs1.symm.trans hs2) hsne
    · by_cases ht1 : t = hot
      · by_cases ht2 : t = sw.coldTable
        · exact absurd (ht1.symm.trans ht2) (Ne.symm hct)
        · simp [hs1, hs2, ht1, ht2, hsne, Ne.symm hsne, hct, Ne.symm hct]
      · by_cases ht2 : t = sw.coldTable
        · simp [hs1, hs2, ht1, ht2, hsne, Ne.symm hsne, hct, Ne.symm hct]
        · simp [hs1, hs2, ht1, ht2, hsne, Ne.symm hsne, hct, Ne.symm hct]
  · by_cases hs2 : s = sw.target
    · by_cases ht1 : t = hot
      · by_cases ht2 : t = sw.coldTable
        · exact absurd (ht1.symm.trans ht2) (Ne.symm hct)
        · simp [hs1, hs2, ht1, ht2, hsne, Ne.symm hsne, hct, Ne.symm hct]
      · by_cases ht2 : t = sw.coldTable
        · simp [hs1, hs2, ht1, ht2, hsne, Ne.symm hsne, hct, Ne.symm hct]
        · simp [hs1, hs2, ht1, ht2, hsne, Ne.symm hsne, hct, Ne.symm hct]
    · by_cases ht1 : t = hot
      · simp [hs1, hs2, ht1, hsne, Ne.symm hsne, hct, Ne.symm hct]
      · by_cases ht2 : t = sw.coldTable
        · simp [hs1, hs2, ht1, ht2, hsne, Ne.symm hsne, hct, Ne.symm hct]
        · simp [hs1, hs2, ht1, ht2, hsne, Ne.symm hsne, hct, Ne.symm hct]

theorem consistent_applySwap {A : String → ℚ} {hot : String} {servers : List String} {avg : ℚ}
    {st : PState} {sw : Swap} (hg : goodStep A hot servers avg st sw)
    (hwf : wfInner st.regs) (hc : consistent st) :
    consistent (applySwap hot st sw) := by
  obtain ⟨_, _, hsne, hct, _, _⟩ := goodStep_bounds hg
  obtain ⟨⟨tlh, hhotl⟩, ⟨tlc, hcoldl⟩⟩ := goodStep_regions hg hwf
  intro s t
  rw [cnt_applySwap, rgs_applySwap hsne hct]
  by_cases hs1 : s = sw.source
  · by_cases hs2 : s = sw.target
    · exact absurd (hs1.symm.trans hs2) hsne
    · by_cases ht1 : t = hot
      · have hcc := hc sw.source hot
        rw [hhotl] at hcc
        simp only [List.length_cons] at hcc
        simp [hs1, ht1, hsne, Ne.symm hct, hhotl, List.erase_cons_head]
        omega
      · by_cases ht2 : t = sw.coldTable
        · have hcc := hc sw.source sw.coldTable
          simp [hs1, ht2, hsne, Ne.symm hsne, hct, Ne.symm hct]
          omega
        · have hcc := hc sw.source t
          simp [hs1, ht1, ht2, hsne, Ne.symm hsne]
          omega
  · by_cases hs2 : s = sw.target
    · by_cases ht1 : t = hot
      · have hcc := hc sw.target hot
        simp [hs2, ht1, Ne.symm hsne, hct, Ne.symm hct]
        omega
      · by_cases ht2 : t = sw.coldTable
        · have hcc := hc sw.target sw.coldTable
          rw [hcoldl] at hcc
          simp only [List.length_cons] at hcc
          simp [hs2, ht2, Ne.symm hsne, hct, hcoldl, List.erase_cons_head]
          omega
        · have hcc := hc sw.target t
          simp [hs2, ht1, ht2, Ne.symm hsne]
          omega
    · have hcc := hc s t
      simp [hs1, hs2]
      omega

theorem planLoop_consistent {A : String → ℚ} {hot : String} {servers : List String} {avg : ℚ} :
    ∀ (fuel : Nat) (st : PState), wfInner st.regs → consistent st → ∀ n,
      wfInner (replay hot st ((planLoop A hot servers avg fuel st).take n)).regs ∧
      consistent (replay hot st ((planLoop A hot servers avg fuel st).take n)) := by
  intro fuel
  induction fuel with
  | zero =>
    intro st hw hc n
    have hz : planLoop A hot servers avg 0 st = [] := rfl
    rw [hz]
    simpa [replay] using ⟨hw, hc⟩
  | succ nf ih =>
    intro st hw hc n
    rcases hp : planLoop A hot servers avg (nf + 1) st with _ | ⟨sw0, rest⟩
    · simpa [replay] using ⟨hw, hc⟩
    · obtain ⟨n', hn, hg, hrest⟩ := planLoop_cons hp
      obtain rfl : n' = nf := by omega
      cases n with
      | zero => simpa [replay] using ⟨hw, hc⟩
      | succ m =>
        have hw' : wfInner (applySwap hot st sw0).regs := wfInner_applySwap hw
        have hc' := consistent_applySwap hg hw hc
        have hres := ih (applySwap hot st sw0) hw' hc' m
        rw [← hrest] at hres
        simpa [replay, List.take_succ_cons] using hres

end ConsistencyLemmas

/-- Table and server names for the concrete example snapshot used by the
witnesses. -/
def tHot : String := "hot"

def tCold : String := "cold"

def sA : String := "a"

def sB : String := "b"

def rH1 : String := "h1"

def rH2 : String := "h2"

def rC1 : String := "c1"

def rC2 : String := "c2"

/-- Example snapshot counts: server `a` holds 2 hot regions, server `b` holds
none of the hot table and 2 cold regions (hot average 1). -/
def demoStc : SCDict := [(sA, [(tHot, 2)]), (sB, [(tHot, 0), (tCold, 2)])]

/-- Region lists matching `demoStc`. -/
def demoRegs : SRDict := [(sA, [(tHot, [rH1, rH2])]), (sB, [(tCold, [rC1, rC2])])]

/-- The single swap the planner produces on the example snapshot. -/
def demoSwap : Swap := ⟨rH1, rC1, tCold, sA, sB⟩

/-- A snapshot whose hot-table counts already sit at the average. -/
def demoBalStc : SCDict := [(sA, [(tHot, 1)]), (sB, [(tHot, 1)])]

/-- A table name absent from the example snapshot. -/
def tNone : String := "missing"

/-- Full identity string registered for server `a` only. -/
def sAFull : String := "a,16020,1740626070375"

/-- A host-to-full-identity mapping covering server `a` but not server `b`. -/
def demoFull : List (String × String) := [(sA, sAFull)]

section Claims

/-- Claim C2: for every table and for every prefix of the plan returned by
`computeBalancePlan`, replaying that prefix of swaps against the initial
counts leaves the sum of that table's region counts across all servers equal
to the sum in the original snapshot. -/
theorem c2_count_conservation (hot : String) (stc : SCDict) (regs : SRDict)
    (n : Nat) (t : String) :
    stcTotal (replay hot ⟨stc, regs⟩ ((computeBalancePlan hot stc regs).take n)).stc t
      = stcTotal stc t :=
  stcTotal_replay hot ⟨stc, regs⟩ ((computeBalancePlan hot stc regs).take n) t

/-- Claim C3: every element of the returned plan is emitted at a state where
the donor's hot-table count strictly exceeds the fixed hot-table average and
the receiver's count is strictly below it, and applying the swap decrements
the donor's hot count by one and increments the receiver's by one — so each
signed deviation (count − average for the donor, average − count for the
receiver) strictly decreases by exactly one count — while the total count of
every table (hence every table's global average) is left unchanged. -/
theorem c3_swap_effect (hot : String) (stc : SCDict) (regs : SRDict) (k : Nat) (sw : Swap)
    (h : (computeBalancePlan hot stc regs).get? k = some sw) :
    (tableAvgQ stc hot < (cnt (preState hot stc regs k).stc sw.source hot : ℚ)) ∧
    ((cnt (preState hot stc regs k).stc sw.target hot : ℚ) < tableAvgQ stc hot) ∧
    cnt (applySwap hot (preState hot stc regs k) sw).stc sw.source hot
      = cnt (preState hot stc regs k).stc sw.source hot - 1 ∧
    cnt (applySwap hot (preState hot stc regs k) sw).stc sw.target hot
      = cnt (preState hot stc regs k).stc sw.target hot + 1 ∧
    (∀ t, stcTotal (applySwap hot (preState hot stc regs k) sw).stc t
      = stcTotal (preState hot stc regs k).stc t) := by
  by_cases hs : stc.map Prod.fst = []
  · rw [computeBalancePlan, if_pos hs] at h
    exact absurd h (by simp)
  · have hplan : computeBalancePlan hot stc regs =
        planLoop (tableAvgQ stc) hot (stc.map Prod.fst) (tableAvgQ stc hot) 1000 ⟨stc, regs⟩ := by
      rw [computeBalancePlan, if_neg hs]
    have hpre : preState hot stc regs k =
        replay hot ⟨stc, regs⟩
          ((planLoop (tableAvgQ stc) hot (stc.map Prod.fst) (tableAvgQ stc hot) 1000
            ⟨stc, regs⟩).take k) := by
      rw [preState, hplan]
    rw [hplan] at h
    have hg := planLoop_get 1000 ⟨stc, regs⟩ k sw h
    rw [← hpre] at hg
    obtain ⟨h1, h2, hsne, hct, _, _⟩ := goodStep_bounds hg
    refine ⟨h1, h2, ?_, ?_, fun t => stcTotal_applySwap hot (preState hot stc regs k) sw t⟩
    · rw [cnt_applySwap, if_pos ⟨rfl, rfl⟩, if_neg (fun hc => hsne hc.1),
        if_neg (fun hc => hsne hc.1), if_neg (fun hc => hct hc.2.symm)]
      ring
    · rw [cnt_applySwap, if_neg (fun hc => hsne hc.1.symm), if_pos ⟨rfl, rfl⟩,
        if_neg (fun hc => hct hc.2.symm), if_neg (fun hc => hsne hc.1.symm)]
      ring

/-- Claim C5: if the hot table's count on every server already equals the hot
table's global average, the planner returns the empty list. -/
theorem c5_balanced_returns_empty (hot : String) (stc : SCDict) (regs : SRDict)
    (h : ∀ s ∈ stc.map Prod.fst, (cnt stc s hot : ℚ) = tableAvgQ stc hot) :
    computeBalancePlan hot stc regs = [] := by
  rw [computeBalancePlan]
  by_cases hs : stc.map Prod.fst = []
  · rw [if_pos hs]
  · rw [if_neg hs]
    have hd : donorsOf (stc.map Prod.fst) stc hot (tableAvgQ stc hot) = [] := by
      rw [donorsOf]
      have hf : (stc.map Prod.fst).filterMap (fun s =>
          if tableAvgQ stc hot < (cnt stc s hot : ℚ)
          then some (s, (cnt stc s hot : ℚ) - tableAvgQ stc hot) else none) = [] := by
        rw [List.filterMap_eq_nil_iff]
        intro a ha
        have hna : ¬ tableAvgQ stc hot < (cnt stc a hot : ℚ) := by
          rw [h a ha]
          exact lt_irrefl _
        rw [if_neg hna]
      rw [hf]
      rfl
    show planLoop (tableAvgQ stc) hot (stc.map Prod.fst) (tableAvgQ stc hot) (999 + 1)
        ⟨stc, regs⟩ = []
    rw [planLoop_succ, hd]
    simp

/-- Claim C6: the planner always terminates with a list of at most 1000 swaps
(the iteration cap), and exhausted fuel ends the loop returning the swaps
accumulated so far (modelled by the cons-accumulating fuel recursion whose
base case adds nothing further) rather than raising an error — the functions
are total by construction. -/
theorem c6_terminates_within_cap :
    (∀ (hot : String) (stc : SCDict) (regs : SRDict),
      (computeBalancePlan hot stc regs).length ≤ 1000) ∧
    (∀ (A : String → ℚ) (hot : String) (servers : List String) (avg : ℚ) (st : PState),
      planLoop A hot servers avg 0 st = []) := by
  constructor
  · intro hot stc regs
    rw [computeBalancePlan]
    by_cases hs : stc.map Prod.fst = []
    · rw [if_pos hs]
      simp
    · rw [if_neg hs]
      exact planLoop_length (tableAvgQ stc) hot (stc.map Prod.fst) (tableAvgQ stc hot)
        1000 ⟨stc, regs⟩
  · intro A hot servers avg st
    rfl

/-- Claim C4: a server is classified as a donor exactly when its current
hot-table count strictly exceeds the fixed hot-table average (weight
count − average), as a receiver exactly when it is strictly below (weight
average − count); servers exactly at the average are neither; and both lists
are ordered by descending weight. -/
theorem c4_classification (servers : List String) (stc : SCDict) (hot : String) (avg : ℚ) :
    (∀ s w, (s, w) ∈ donorsOf servers stc hot avg ↔
        s ∈ servers ∧ avg < (cnt stc s hot : ℚ) ∧ w = (cnt stc s hot : ℚ) - avg) ∧
    (∀ s w, (s, w) ∈ receiversOf servers stc hot avg ↔
        s ∈ servers ∧ (cnt stc s hot : ℚ) < avg ∧ w = avg - (cnt stc s hot : ℚ)) ∧
    (∀ s, (cnt stc s hot : ℚ) = avg →
        ∀ w, (s, w) ∉ donorsOf servers stc hot avg ∧ (s, w) ∉ receiversOf servers stc hot avg) ∧
    (donorsOf servers stc hot avg).Pairwise (fun a b => b.2 ≤ a.2) ∧
    (receiversOf servers stc hot avg).Pairwise (fun a b => b.2 ≤ a.2) := by
  refine ⟨mem_donorsOf servers stc hot avg, mem_receiversOf servers stc hot avg, ?_,
    pairwise_sortDesc _, pairwise_sortDesc _⟩
  intro s heq w
  constructor
  · intro hmem
    have hlt := ((mem_donorsOf servers stc hot avg s w).mp hmem).2.1
    rw [heq] at hlt
    exact absurd hlt (lt_irrefl avg)
  · intro hmem
    have hlt := ((mem_receiversOf servers stc hot avg s w).mp hmem).2.1
    rw [heq] at hlt
    exact absurd hlt (lt_irrefl avg)

/-- Claim C7: an empty snapshot or an absent hot table aborts the run with the
corresponding error before any planning and no output file is written (the
model reaches an error constructor without a plan or a write flag); otherwise
the run always completes, returning exactly the computed plan. -/
theorem c7_error_handling (stc : SCDict) (regs : SRDict) (hot : String) (dry : Bool) :
    (stc = [] → runMain stc regs hot dry = RunResult.errNoRegions) ∧
    (stc ≠ [] → stcTotal stc hot = 0 → runMain stc regs hot dry = RunResult.errTableNotFound) ∧
    (∀ plan wrote, runMain stc regs hot dry = RunResult.finished plan wrote →
      stc ≠ [] ∧ stcTotal stc hot ≠ 0 ∧ plan = computeBalancePlan hot stc regs) ∧
    (stc ≠ [] → stcTotal stc hot ≠ 0 →
      ∃ wrote, runMain stc regs hot dry
        = RunResult.finished (computeBalancePlan hot stc regs) wrote) := by
  refine ⟨?_, ?_, ?_, ?_⟩
  · intro h
    rw [runMain, if_pos h]
  · intro h1 h2
    rw [runMain, if_neg h1, if_pos h2]
  · intro plan wrote h
    by_cases h1 : stc = []
    · rw [runMain, if_pos h1] at h
      exact absurd h (by simp)
    · by_cases h2 : stcTotal stc hot = 0
      · rw [runMain, if_neg h1, if_pos h2] at h
        exact absurd h (by simp)
      · simp only [runMain, if_neg h1, if_neg h2] at h
        refine ⟨h1, h2, ?_⟩
        by_cases h3 : computeBalancePlan hot stc regs = []
        · rw [if_pos h3] at h
          injection h with hp hw
          rw [← hp, h3]
        · rw [if_neg h3] at h
          injection h with hp hw
          exact hp.symm
  · intro h1 h2
    simp only [runMain, if_neg h1, if_neg h2]
    by_cases h3 : computeBalancePlan hot stc regs = []
    · rw [if_pos h3, h3]
      exact ⟨false, rfl⟩
    · rw [if_neg h3]
      exact ⟨!dry, rfl⟩

/-- Claim C9: the exporter resolves each swap endpoint through the
host-to-full-identity mapping when present and otherwise reuses the short
host identifier verbatim, and both relocation directives of a swap are built
through this resolution. -/
theorem c9_fullname_fallback (fullname : List (String × String)) (s : String) (sw : Swap) :
    (dGet fullname s = none → resolveServer fullname s = s) ∧
    (∀ f, dGet fullname s = some f → resolveServer fullname s = f) ∧
    swapDirectives fullname sw =
      [⟨sw.hotRegion, resolveServer fullname sw.target⟩,
       ⟨sw.coldRegion, resolveServer fullname sw.source⟩] := by
  refine ⟨?_, ?_, rfl⟩
  · intro h
    rw [resolveServer, dGetD, h]
    rfl
  · intro f h
    rw [resolveServer, dGetD, h]
    rfl

/-- Claim C1: for a donor/receiver pair, the cold candidate is the maximum of
the score (count on receiver − table average, minus 0.5 when the donor's
count plus one would strictly exceed the average plus one) over the non-hot
tables with a non-empty region list on the receiver, ties going to the first
encountered table (earlier tables score strictly less, later ones at most the
winner); the first donor (in priority order) with a hot region and a
receiver (in priority order) yielding a candidate produces the swap; and the
loop emits exactly that swap in the iteration before recursing on the updated
state. -/
theorem c1_cold_selection :
    (∀ (A : String → ℚ) (dD dR : List (String × Int)) (t : String),
      coldScore A dD dR t =
        (((dGetD dR t 0 : Int) : ℚ) - A t) -
        (if A t + 1 < ((dGetD dD t 0 : Int) : ℚ) + 1 then 1/2 else 0)) ∧
    (∀ (A : String → ℚ) (hot : String) (dD dR : List (String × Int))
       (items : List (String × List String)) (s : ℚ) (t r : String),
      pickCold A hot dD dR items = some (s, t, r) →
      ∃ pre tl post, items = pre ++ (t, r :: tl) :: post ∧ t ≠ hot ∧
        s = coldScore A dD dR t ∧
        (∀ q ∈ pre, q.1 ≠ hot → q.2 ≠ [] → coldScore A dD dR q.1 < s) ∧
        (∀ q ∈ post, q.1 ≠ hot → q.2 ≠ [] → coldScore A dD dR q.1 ≤ s)) ∧
    (∀ (A : String → ℚ) (hot : String) (stc : SCDict) (regs : SRDict)
       (rcvs ds : List (String × ℚ)) (sw : Swap),
      findSwap A hot stc regs rcvs ds = some sw →
      ∃ dpre w dpost, ds = dpre ++ (sw.source, w) :: dpost ∧
        (∀ q ∈ dpre, ∀ hr0 tl0, dGetD (dGetD regs q.1 []) hot [] = hr0 :: tl0 →
          findReceiver A hot stc regs q.1 hr0 rcvs = none) ∧
        (∃ tl, dGetD (dGetD regs sw.source []) hot [] = sw.hotRegion :: tl) ∧
        ∃ rpre w2 rpost s2, rcvs = rpre ++ (sw.target, w2) :: rpost ∧
          (∀ q ∈ rpre, pickCold A hot (dGetD stc sw.source []) (dGetD stc q.1 [])
            (dGetD regs q.1 []) = none) ∧
          pickCold A hot (dGetD stc sw.source []) (dGetD stc sw.target [])
            (dGetD regs sw.target []) = some (s2, sw.coldTable, sw.coldRegion)) ∧
    (∀ (A : String → ℚ) (hot : String) (servers : List String) (avg : ℚ)
       (fuel : Nat) (st : PState) (sw : Swap) (rest : List Swap),
      planLoop A hot servers avg fuel st = sw :: rest →
      goodStep A hot servers avg st sw ∧
      rest = planLoop A hot servers avg (fuel - 1) (applySwap hot st sw)) := by
  refine ⟨?_, ?_, ?_, ?_⟩
  · intro A dD dR t
    simp only [coldScore]
    split_ifs with h
    · ring
    · ring
  · intro A hot dD dR items s t r h
    exact pickCold_spec A hot dD dR items s t r h
  · intro A hot stc regs rcvs ds sw h
    obtain ⟨dpre, w, dpost, hdec, hpre, hhd, hfr⟩ := findSwap_some A hot stc regs rcvs ds sw h
    obtain ⟨hsrc, hhr, rpre, w2, rpost, s2, hrdec, hrpre, hpick⟩ :=
      findReceiver_some A hot stc regs sw.source sw.hotRegion rcvs sw hfr
    exact ⟨dpre, w, dpost, hdec, hpre, hhd, rpre, w2, rpost, s2, hrdec, hrpre, hpick⟩
  · intro A hot servers avg fuel st sw rest h
    obtain ⟨fuel', rfl, hg, hrest⟩ := planLoop_cons h
    refine ⟨hg, ?_⟩
    simpa using hrest

/-- Claim C10: provided the input snapshot is internally consistent (every
count equals the length of the corresponding region list, and each per-server
table dictionary has distinct keys, as every snapshot built by the parser
is), then after replaying any prefix of the plan the working copy stays
consistent — every count still equals the length of its region list — and in
particular no count is ever negative. -/
theorem c10_working_copy_consistent (hot : String) (stc : SCDict) (regs : SRDict) (n : Nat)
    (hw : wfInner regs) (hc : consistent ⟨stc, regs⟩) :
    consistent (preState hot stc regs n) ∧
    ∀ s t, 0 ≤ cnt (preState hot stc regs n).stc s t := by
  have hmain : wfInner (preState hot stc regs n).regs ∧ consistent (preState hot stc regs n) := by
    by_cases hs : stc.map Prod.fst = []
    · have hempty : computeBalancePlan hot stc regs = [] := by
        rw [computeBalancePlan, if_pos hs]
      rw [preState, hempty]
      constructor
      · simpa [replay] using hw
      · intro s t
        simpa [replay] using hc s t
    · have hplan : computeBalancePlan hot stc regs =
          planLoop (tableAvgQ stc) hot (stc.map Prod.fst) (tableAvgQ stc hot) 1000
            ⟨stc, regs⟩ := by
        rw [computeBalancePlan, if_neg hs]
      rw [preState, hplan]
      exact planLoop_consistent 1000 ⟨stc, regs⟩ hw hc n
  refine ⟨hmain.2, fun s t => ?_⟩
  rw [hmain.2 s t]
  exact Int.natCast_nonneg _

end Claims

section Witnesses

attribute [local semireducible] Rat.add Rat.mul Rat.inv Rat.sub

theorem c3_swap_effect_witness :
    (tableAvgQ demoStc tHot
      < (cnt (preState tHot demoStc demoRegs 0).stc demoSwap.source tHot : ℚ)) ∧
    ((cnt (preState tHot demoStc demoRegs 0).stc demoSwap.target tHot : ℚ)
      < tableAvgQ demoStc tHot) ∧
    cnt (applySwap tHot (preState tHot demoStc demoRegs 0) demoSwap).stc demoSwap.source tHot
      = cnt (preState tHot demoStc demoRegs 0).stc demoSwap.source tHot - 1 ∧
    cnt (applySwap tHot (preState tHot demoStc demoRegs 0) demoSwap).stc demoSwap.target tHot
      = cnt (preState tHot demoStc demoRegs 0).stc demoSwap.target tHot + 1 ∧
    (∀ t, stcTotal (applySwap tHot (preState tHot demoStc demoRegs 0) demoSwap).stc t
      = stcTotal (preState tHot demoStc demoRegs 0).stc t) :=
  c3_swap_effect tHot demoStc demoRegs 0 demoSwap (by decide)

theorem c5_balanced_returns_empty_witness :
    computeBalancePlan tHot demoBalStc [] = [] :=
  c5_balanced_returns_empty tHot demoBalStc [] (by decide)

theorem c4_classification_witness :
    (sA, (1 : ℚ)) ∉ donorsOf [sA] demoBalStc tHot 1 ∧
    (sA, (1 : ℚ)) ∉ receiversOf [sA] demoBalStc tHot 1 :=
  (c4_classification [sA] demoBalStc tHot 1).2.2.1 sA (by decide) 1

theorem c7_error_handling_witness :
    runMain demoStc demoRegs tNone false = RunResult.errTableNotFound ∧
    runMain [] [] tHot false = RunResult.errNoRegions :=
  ⟨(c7_error_handling demoStc demoRegs tNone false).2.1 (by decide) (by decide),
   (c7_error_handling [] [] tHot false).1 rfl⟩

theorem c9_fullname_fallback_witness :
    resolveServer demoFull sB = sB ∧ resolveServer demoFull sA = sAFull :=
  ⟨(c9_fullname_fallback demoFull sB demoSwap).1 (by decide),
   (c9_fullname_fallback demoFull sA demoSwap).2.1 sAFull (by decide)⟩

theorem c10_working_copy_consistent_witness :
    consistent (preState tHot demoStc demoRegs 1) ∧
    ∀ s t, 0 ≤ cnt (preState tHot demoStc demoRegs 1).stc s t :=
  c10_working_copy_consistent tHot demoStc demoRegs 1
    (show ∀ p ∈ demoRegs, (p.2.map Prod.fst).Nodup by decide)
    (by
      intro s t
      by_cases h1 : s = sA
      · by_cases h2 : t = tHot
        · rw [h1, h2]
          decide
        · by_cases h3 : t = tCold
          · rw [h1, h3]
            decide
          · show cnt demoStc s t = ((rgs demoRegs s t).length : Int)
            simp [cnt, rgs, dGetD, dGet, demoStc, demoRegs, h1, h2, h3]
      · by_cases h4 : s = sB
        · by_cases h2 : t = tHot
          · rw [h4, h2]
            decide
          · by_cases h3 : t = tCold
            · rw [h4, h3]
              decide
            · show cnt demoStc s t = ((rgs demoRegs s t).length : Int)
              simp [cnt, rgs, dGetD, dGet, demoStc, demoRegs, h4, h2, h3]
        · show cnt demoStc s t = ((rgs demoRegs s t).length : Int)
          simp [cnt, rgs, dGetD, dGet, demoStc, demoRegs, h1, h4])

theorem c1_cold_selection_witness :
    goodStep (tableAvgQ demoStc) tHot [sA, sB] 1 ⟨demoStc, demoRegs⟩ demoSwap ∧
    ([] : List Swap) = planLoop (tableAvgQ demoStc) tHot [sA, sB] 1 (1000 - 1)
      (applySwap tHot ⟨demoStc, demoRegs⟩ demoSwap) :=
  c1_cold_selection.2.2.2 (tableAvgQ demoStc) tHot [sA, sB] 1 1000 ⟨demoStc, demoRegs⟩
    demoSwap [] (by decide)

end Witnesses

end SwapRegions
